import Mathlib

/-!
Verification of the podcast audio-to-text RAG pipeline
(`src/audio_processor.py`, `src/text_indexer.py`, `src/rag_engine.py`,
`src/utils.py`) against its natural-language specification.

The Python code is shallowly embedded: segment timestamps (floats in the
source) become rationals, Python dictionaries become structures or
association lists, `try/except` around purely mechanical code becomes
`Except`-valued computation where the exception is actually reachable
(sequence indexing), and truthiness tests on strings become explicit
emptiness/whitespace tests on the character data.
-/

/-! ## Python string primitives used by the code -/

/-- Truthiness of Python `s.strip()`, negated: `s.strip()` is falsy exactly
when every character of `s` is whitespace. -/
def isBlank (s : String) : Bool := s.data.all Char.isWhitespace

/-- Python `s.lower()`: character-wise lowercasing. -/
def pyLower (s : String) : String := ⟨s.data.map Char.toLower⟩

/-- Helper for Python `s.split()` (no separator): accumulates the current
word (reversed) and splits on runs of whitespace, discarding empty pieces. -/
def pyWordsAux (cur : List Char) : List Char → List String
  | [] => if cur = [] then [] else [⟨cur.reverse⟩]
  | c :: cs =>
    if c.isWhitespace then
      if cur = [] then pyWordsAux [] cs else ⟨cur.reverse⟩ :: pyWordsAux [] cs
    else pyWordsAux (c :: cur) cs

/-- Python `s.split()` with no arguments, on raw character data. -/
def pyWords (l : List Char) : List String := pyWordsAux [] l

/-- Python `t in s` substring membership. -/
def substrIn (t s : String) : Bool := decide (t.data <:+: s.data)

/-! ## Data model of the audio processor (`src/audio_processor.py`) -/

/-- One Whisper transcript segment: `segment['start']`, `segment['end']`,
`segment['text']`, `segment.get('words', [])`. -/
structure Seg where
  start : ℚ
  stop : ℚ
  text : String
  words : List String
deriving DecidableEq

/-- A chunk as built by `chunk_transcript_by_time`: the running accumulator
starts with `start_time`/`end_time` as Python `None`, hence `Option`. -/
structure Chunk where
  text : String
  start_time : Option ℚ
  end_time : Option ℚ
  words : List String
  speaker : String
deriving DecidableEq

/-- The initial accumulator dict (audio_processor.py lines 75-81). -/
def initChunk : Chunk := ⟨"", none, none, [], "Unknown"⟩

/-- `speakers.get(i, 'Unknown') if speakers else 'Unknown'`: the speaker
assignment is an association list over segment indices; the `None`/empty-dict
case is the empty list, for which the lookup default already yields
`"Unknown"`. -/
def speakerOf (sp : List (ℕ × String)) (i : ℕ) : String :=
  (sp.lookup i).getD "Unknown"

/-- The body of the `for i, segment in enumerate(segments)` loop of
`chunk_transcript_by_time` (audio_processor.py lines 83-117), acting on the
state (chunks emitted so far, current accumulator). -/
def chunkStep (sp : List (ℕ × String)) (dur : ℚ) (i : ℕ) (seg : Seg)
    (st : List Chunk × Chunk) : List Chunk × Chunk :=
  let chunks := st.1
  let cur0 := st.2
  let speaker := speakerOf sp i
  -- lines 90-92: if start_time is None, set start_time and speaker
  let cur1 : Chunk :=
    if cur0.start_time = none then
      { cur0 with start_time := some seg.start, speaker := speaker }
    else cur0
  -- lines 94-96: extend end_time, append text and words
  let cur2 : Chunk :=
    { cur1 with
      end_time := some seg.stop
      text := cur1.text ++ " " ++ seg.text
      words := cur1.words ++ seg.words }
  -- lines 99-108: speaker change closes the (already extended) accumulator
  if speaker ≠ cur2.speaker ∧ isBlank cur2.text = false then
    (chunks ++ [cur2], ⟨seg.text, some seg.start, some seg.stop, seg.words, speaker⟩)
  -- lines 109-117: duration threshold reached or exceeded
  else if dur ≤ cur2.end_time.getD 0 - cur2.start_time.getD 0 then
    (chunks ++ [cur2], ⟨seg.text, some seg.start, some seg.stop, seg.words, speaker⟩)
  else (chunks, cur2)

/-- The enumerated loop itself, `i` being the next segment index. -/
def chunkAux (sp : List (ℕ × String)) (dur : ℚ) :
    ℕ → List Seg → List Chunk × Chunk → List Chunk × Chunk
  | _, [], st => st
  | i, seg :: rest, st => chunkAux sp dur (i + 1) rest (chunkStep sp dur i seg st)

/-- `AudioProcessor.chunk_transcript_by_time` (audio_processor.py lines
67-125): fold the loop body over the enumerated segments, then flush the
final accumulator if its text has a non-whitespace character. -/
def chunk_transcript_by_time (segs : List Seg) (sp : List (ℕ × String))
    (dur : ℚ) : List Chunk :=
  let st := chunkAux sp dur 0 segs ([], initChunk)
  if isBlank st.2.text = false then st.1 ++ [st.2] else st.1

/-! ### Instrumented chunker

Identical control flow, but each chunk also records the list `idxs` of the
indices of the segments whose text was appended into it ("contributing
segments").  `eraseI` forgets the instrumentation; `chunkI_eq_chunk` below
proves the two functions compute the same chunks. -/

structure IChunk where
  text : String
  start_time : Option ℚ
  end_time : Option ℚ
  words : List String
  speaker : String
  idxs : List ℕ
deriving DecidableEq

def initIChunk : IChunk := ⟨"", none, none, [], "Unknown", []⟩

def eraseI (c : IChunk) : Chunk :=
  ⟨c.text, c.start_time, c.end_time, c.words, c.speaker⟩

def chunkStepI (sp : List (ℕ × String)) (dur : ℚ) (i : ℕ) (seg : Seg)
    (st : List IChunk × IChunk) : List IChunk × IChunk :=
  let chunks := st.1
  let cur0 := st.2
  let speaker := speakerOf sp i
  let cur1 : IChunk :=
    if cur0.start_time = none then
      { cur0 with start_time := some seg.start, speaker := speaker }
    else cur0
  let cur2 : IChunk :=
    { cur1 with
      end_time := some seg.stop
      text := cur1.text ++ " " ++ seg.text
      words := cur1.words ++ seg.words
      idxs := cur1.idxs ++ [i] }
  if speaker ≠ cur2.speaker ∧ isBlank cur2.text = false then
    (chunks ++ [cur2], ⟨seg.text, some seg.start, some seg.stop, seg.words, speaker, [i]⟩)
  else if dur ≤ cur2.end_time.getD 0 - cur2.start_time.getD 0 then
    (chunks ++ [cur2], ⟨seg.text, some seg.start, some seg.stop, seg.words, speaker, [i]⟩)
  else (chunks, cur2)

def chunkAuxI (sp : List (ℕ × String)) (dur : ℚ) :
    ℕ → List Seg → List IChunk × IChunk → List IChunk × IChunk
  | _, [], st => st
  | i, seg :: rest, st => chunkAuxI sp dur (i + 1) rest (chunkStepI sp dur i seg st)

def chunkI (segs : List Seg) (sp : List (ℕ × String)) (dur : ℚ) : List IChunk :=
  let st := chunkAuxI sp dur 0 segs ([], initIChunk)
  if isBlank st.2.text = false then st.1 ++ [st.2] else st.1

/-! ### Speaker segmenter -/

/-- Label for the running speaker counter. -/
def mkLabel (k : ℕ) : String := "Speaker_" ++ toString k

/-- Loop body of `identify_speakers` for segments after the first: `count`
is the running counter, `prev` the previous segment, `prevLabel` the label
assigned to it (`speakers[i-1]` in the source). -/
def identSpkAux (count : ℕ) (prev : Seg) (prevLabel : String) :
    List Seg → List String
  | [] => []
  | s :: rest =>
    if s.start - prev.stop > 2 then
      mkLabel (count + 1) :: identSpkAux (count + 1) s (mkLabel (count + 1)) rest
    else
      prevLabel :: identSpkAux count s prevLabel rest

/-- `AudioProcessor.identify_speakers` (audio_processor.py lines 127-156).
The returned dict has the dense key range `0..n-1`, so it is embedded as the
list of labels in segment order; the empty transcript yields the empty
assignment. -/
def identify_speakers : List Seg → List String
  | [] => []
  | s :: rest => mkLabel 0 :: identSpkAux 0 s (mkLabel 0) rest

/-- Specification-side reading of the same algorithm: the numeric speaker
counter assigned to each segment (segment 0 gets 0; a pause of more than
2.0 s increments, otherwise the counter is kept). -/
def spkIdxAux (k : ℕ) (prev : Seg) : List Seg → List ℕ
  | [] => []
  | s :: rest =>
    if s.start - prev.stop > 2 then (k + 1) :: spkIdxAux (k + 1) s rest
    else k :: spkIdxAux k s rest

def speakerIdx : List Seg → List ℕ
  | [] => []
  | s :: rest => 0 :: spkIdxAux 0 s rest

/-! ## Content index (`src/text_indexer.py`) -/

/-- One backend query result, already unwrapped from the singleton outer
lists (`results['documents'][0]`, ...); `μ` is the opaque metadata type. -/
structure QRes (μ : Type) where
  documents : List String
  metadatas : List μ
  distances : List ℚ
deriving DecidableEq

/-- The empty result shape `{"documents": [[]], "metadatas": [[]],
"distances": [[]]}` produced by every `except` branch. -/
def emptyRes {μ : Type} : QRes μ := ⟨[], [], []⟩

/-- `TextIndexer._semantic_search` (text_indexer.py lines 93-104): delegate
to the embedding backend `b`; a backend error is caught and converted to the
empty result. -/
def semantic_search {μ : Type} (b : String → ℕ → Except Unit (QRes μ))
    (q : String) (n : ℕ) : QRes μ :=
  match b q n with
  | .ok r => r
  | .error _ => emptyRes

/-- Does the candidate document contain at least one query term as a
substring of its lowercased text (`any(term in doc_lower ...)`)?  -/
def anyTermIn (terms : List String) (d : String) : Bool :=
  terms.any fun t => substrIn t (pyLower d)

/-- The filtering loop of `_keyword_search` (text_indexer.py lines 123-132):
walks the candidate documents with their enumeration index `i`, appends
matching triples, and breaks once `n` documents are collected (the break is
checked every iteration, after a possible append).  Indexing
`metadatas[0][i]` / `distances[0][i]` can raise in Python; that is the
`.error` outcome. -/
def kwLoop {μ : Type} (terms : List String) (n : ℕ) (metas : List μ)
    (dists : List ℚ) :
    List String → ℕ → List String × List μ × List ℚ →
    Except Unit (List String × List μ × List ℚ)
  | [], _, acc => .ok acc
  | d :: ds, i, (fd, fm, fs) =>
    if anyTermIn terms d then
      match metas.get? i, dists.get? i with
      | some m, some dist =>
        if n ≤ (fd ++ [d]).length then .ok (fd ++ [d], fm ++ [m], fs ++ [dist])
        else kwLoop terms n metas dists ds (i + 1) (fd ++ [d], fm ++ [m], fs ++ [dist])
      | _, _ => .error ()
    else if n ≤ fd.length then .ok (fd, fm, fs)
    else kwLoop terms n metas dists ds (i + 1) (fd, fm, fs)

/-- The query terms: `query.lower().split()`. -/
def pyTerms (q : String) : List String := pyWords (pyLower q).data

/-- `TextIndexer._keyword_search` (text_indexer.py lines 106-142): request
`2 * n` semantic candidates, keep those containing a query term, truncate to
`n`; any error (backend or indexing) becomes the empty result. -/
def keyword_search {μ : Type} (b : String → ℕ → Except Unit (QRes μ))
    (q : String) (n : ℕ) : QRes μ :=
  match b q (2 * n) with
  | .error _ => emptyRes
  | .ok results =>
    match kwLoop (pyTerms q) n results.metadatas results.distances
        results.documents 0 ([], [], []) with
    | .error _ => emptyRes
    | .ok (fd, fm, fs) => ⟨fd, fm, fs⟩

/-- First combining loop of `_hybrid_search` (text_indexer.py lines
163-167): add every semantic hit whose document text is not yet present. -/
def hyAdd1 {μ : Type} (metas : List μ) (dists : List ℚ) :
    List String → ℕ → List String × List μ × List ℚ →
    Except Unit (List String × List μ × List ℚ)
  | [], _, acc => .ok acc
  | d :: ds, i, (cd, cm, cs) =>
    if d ∈ cd then hyAdd1 metas dists ds (i + 1) (cd, cm, cs)
    else
      match metas.get? i, dists.get? i with
      | some m, some dist => hyAdd1 metas dists ds (i + 1) (cd ++ [d], cm ++ [m], cs ++ [dist])
      | _, _ => .error ()

/-- Second combining loop (text_indexer.py lines 174-178): add keyword hits
not yet present while fewer than `n` documents are collected. -/
def hyAdd2 {μ : Type} (n : ℕ) (metas : List μ) (dists : List ℚ) :
    List String → ℕ → List String × List μ × List ℚ →
    Except Unit (List String × List μ × List ℚ)
  | [], _, acc => .ok acc
  | d :: ds, i, (cd, cm, cs) =>
    if d ∉ cd ∧ cd.length < n then
      match metas.get? i, dists.get? i with
      | some m, some dist => hyAdd2 n metas dists ds (i + 1) (cd ++ [d], cm ++ [m], cs ++ [dist])
      | _, _ => .error ()
    else hyAdd2 n metas dists ds (i + 1) (cd, cm, cs)

/-- `TextIndexer._hybrid_search` (text_indexer.py lines 144-188): semantic
results first (deduplicated by document text), then keyword backfill, each
final list truncated to `n`. -/
def hybrid_search {μ : Type} (b : String → ℕ → Except Unit (QRes μ))
    (q : String) (n : ℕ) : QRes μ :=
  let s := semantic_search b q n
  let k := keyword_search b q n
  match hyAdd1 s.metadatas s.distances s.documents 0 ([], [], []) with
  | .error _ => emptyRes
  | .ok acc1 =>
    match hyAdd2 n k.metadatas k.distances k.documents 0 acc1 with
    | .error _ => emptyRes
    | .ok (cd, cm, cs) => ⟨cd.take n, cm.take n, cs.take n⟩

/-- `TextIndexer.search_similar_content` (text_indexer.py lines 76-91):
strategy dispatch; any unrecognized strategy falls back to semantic. -/
def search_similar_content {μ : Type} (b : String → ℕ → Except Unit (QRes μ))
    (q : String) (n : ℕ) (strategy : String) : QRes μ :=
  if strategy = "semantic" then semantic_search b q n
  else if strategy = "keyword" then keyword_search b q n
  else if strategy = "hybrid" then hybrid_search b q n
  else semantic_search b q n

/-- Specification-side description of the hybrid document list: all semantic
hits in rank order deduplicated by exact text, then keyword hits not already
present while fewer than `n` are collected. -/
def dedupAdd (acc : List String) (d : String) : List String :=
  if d ∈ acc then acc else acc ++ [d]

def dedupFirst (l : List String) : List String := l.foldl dedupAdd []

def backfill (n : ℕ) (acc : List String) (d : String) : List String :=
  if d ∉ acc ∧ acc.length < n then acc ++ [d] else acc

def hybridSpecDocs (sdocs kdocs : List String) (n : ℕ) : List String :=
  kdocs.foldl (backfill n) (dedupFirst sdocs)

/-! ## Answer synthesizer (`src/rag_engine.py`, `src/utils.py`) -/

/-- Python `f"{m:02d}"`: pad with a leading zero to width two (a sign counts
toward the width). -/
def pad2 (m : ℤ) : String :=
  let s := toString m
  if s.length < 2 then "0" ++ s else s

/-- `RAGEngine._format_timestamp` (rag_engine.py lines 228-235).  A numeric
argument is `some q`; a non-numeric argument (which raises `TypeError` in
the arithmetic, caught by the bare `except`) is `none`.  `int(seconds //
60)` is the floor of `q / 60`; `int(seconds % 60)` is the floor of the
(always non-negative) Python float modulus. -/
def format_timestamp : Option ℚ → String
  | none => "00:00"
  | some seconds =>
    let minutes : ℤ := ⌊seconds / 60⌋
    let secs : ℤ := ⌊seconds - 60 * ((⌊seconds / 60⌋ : ℤ) : ℚ)⌋
    pad2 minutes ++ ":" ++ pad2 secs

/-- `format_time` (utils.py lines 39-46) — textually the same function. -/
def format_time : Option ℚ → String
  | none => "00:00"
  | some seconds =>
    let minutes : ℤ := ⌊seconds / 60⌋
    let secs : ℤ := ⌊seconds - 60 * ((⌊seconds / 60⌋ : ℤ) : ℚ)⌋
    pad2 minutes ++ ":" ++ pad2 secs

/-- Metadata stored per chunk by `TextIndexer.add_transcript_chunks`
(text_indexer.py lines 46-53); this is the metadata shape `format_context`
reads back. -/
structure ChunkMeta where
  episode_id : String
  episode_title : String
  start_time : ℚ
  end_time : ℚ
  speaker : String
  chunk_index : ℕ
deriving DecidableEq

/-- Numbered context blocks of `RAGEngine.format_context` (rag_engine.py
lines 124-140).  The enumeration index advances over every zipped pair; a
pair is rendered only when the document is truthy (non-empty — the metadata
dict, being non-empty, is always truthy). -/
def buildParts : ℕ → List (String × ChunkMeta) → List String
  | _, [] => []
  | i, (doc, md) :: rest =>
    if doc ≠ "" then
      ("\nSource " ++ toString (i + 1) ++ " - " ++ md.episode_title ++ " (" ++
          format_timestamp (some md.start_time) ++ " - " ++
          format_timestamp (some md.end_time) ++ ")\nSpeaker: " ++ md.speaker ++
          "\nContent: " ++ doc ++ "\n") :: buildParts (i + 1) rest
    else buildParts (i + 1) rest

/-- `RAGEngine.format_context` (rag_engine.py lines 114-146). -/
def format_context (r : QRes ChunkMeta) : String :=
  if r.documents = [] then "No relevant content found."
  else String.intercalate "\n" (buildParts 0 (r.documents.zip r.metadatas))

structure SearchInfo where
  strategy : String
  model : String
  results_count : ℕ
deriving DecidableEq

structure RagResult where
  response : String
  sources : QRes ChunkMeta
  search_info : SearchInfo
deriving DecidableEq

/-- `RAGEngine.query_podcasts` (rag_engine.py lines 58-112).  The two
generation backends (`generate_gemini_response`, `generate_openai_response`)
are external collaborators that internally catch every failure and return a
string, so they are passed as total functions of (query, context,
strategy). -/
def query_podcasts (b : String → ℕ → Except Unit (QRes ChunkMeta))
    (genGemini genOpenai : String → String → String → String)
    (defaultModel : String) (query : String) (n : ℕ) (strategy : String)
    (model? : Option String) : RagResult :=
  let model := model?.getD defaultModel
  let search_results := search_similar_content b query n strategy
  let context := format_context search_results
  let response :=
    if model = "gemini" then genGemini query context strategy
    else if model = "openai" then genOpenai query context strategy
    else "Error: Unknown model '" ++ model ++ "'. Available models: gemini, openai"
  ⟨response, search_results, ⟨strategy, model, search_results.documents.length⟩⟩

/-! ## Helper functions over segments, for stating chunker properties -/

/-- Text of segment `j` (defaulting outside the index range). -/
def textOf (segs : List Seg) (j : ℕ) : String := ((segs.get? j).map Seg.text).getD ""

def startOf (segs : List Seg) (j : ℕ) : ℚ := ((segs.get? j).map Seg.start).getD 0

def stopOf (segs : List Seg) (j : ℕ) : ℚ := ((segs.get? j).map Seg.stop).getD 0

/-! ## Basic lemmas about the string primitives -/

lemma isBlank_append (a b : String) :
    isBlank (a ++ b) = (isBlank a && isBlank b) := by
  simp [isBlank, String.data_append, List.all_append]

lemma isBlank_space : isBlank " " = true := rfl

lemma isBlank_empty : isBlank "" = true := rfl

/-- If the accumulated text `a ++ " " ++ b` is all-whitespace, so is `b`. -/
lemma isBlank_of_append_blank {a b : String}
    (h : isBlank (a ++ " " ++ b) = true) : isBlank a = true ∧ isBlank b = true := by
  simp only [isBlank_append, Bool.and_eq_true] at h
  exact ⟨h.1.1, h.2⟩

/-! ## Erasing the instrumentation recovers the source chunker -/

/-- Forget the ghost index lists in a chunker state. -/
def eraseSt (st : List IChunk × IChunk) : List Chunk × Chunk :=
  (st.1.map eraseI, eraseI st.2)

lemma eraseSt_step (sp : List (ℕ × String)) (dur : ℚ) (i : ℕ) (seg : Seg)
    (st : List IChunk × IChunk) :
    eraseSt (chunkStepI sp dur i seg st) = chunkStep sp dur i seg (eraseSt st) := by
  obtain ⟨cs, cur⟩ := st
  by_cases h0 : cur.start_time = none <;>
    simp only [chunkStepI, chunkStep, eraseSt, eraseI, h0, if_true, if_false,
      reduceIte] <;>
    split_ifs <;>
    simp [eraseI]

lemma chunkAuxI_erase (sp : List (ℕ × String)) (dur : ℚ) :
    ∀ (rest : List Seg) (i : ℕ) (st : List IChunk × IChunk),
      eraseSt (chunkAuxI sp dur i rest st) = chunkAux sp dur i rest (eraseSt st)
  | [], _, _ => rfl
  | seg :: rest, i, st => by
    rw [chunkAuxI, chunkAux, chunkAuxI_erase sp dur rest (i + 1), eraseSt_step]

/-- The instrumented chunker computes exactly the chunks of
`chunk_transcript_by_time`. -/
lemma chunkI_eq_chunk (segs : List Seg) (sp : List (ℕ × String)) (dur : ℚ) :
    (chunkI segs sp dur).map eraseI = chunk_transcript_by_time segs sp dur := by
  have h := chunkAuxI_erase sp dur segs 0 ([], initIChunk)
  have h0 : eraseSt ([], initIChunk) = ([], initChunk) := rfl
  rw [h0] at h
  unfold chunkI chunk_transcript_by_time
  rw [← h]
  rcases hst : chunkAuxI sp dur 0 segs ([], initIChunk) with ⟨cs, cur⟩
  by_cases hb : isBlank cur.text = false <;> simp [eraseSt, eraseI, hb]

/-! ## Chunker invariants

`GoodChunk` is what the claims need of every produced chunk: its
contributing indices form a non-empty contiguous block inside the segment
range; every contributing segment except possibly the final (closing) one
carries the chunk's speaker label unless its text is pure whitespace; and
for chunks of at least three segments, the accumulator span just before the
final segment was absorbed is below the threshold.  `GoodCur` is the
corresponding (stronger) statement about the in-progress accumulator after
the first `k` segments have been processed. -/

lemma range'_snoc (a n : ℕ) : List.range' a (n + 1) = List.range' a n ++ [a + n] := by
  simp [List.range'_concat]

def GoodChunk (segs : List Seg) (sp : List (ℕ × String)) (dur : ℚ)
    (c : IChunk) : Prop :=
  ∃ a m, c.idxs = List.range' a m ∧ 1 ≤ m ∧ a + m ≤ segs.length ∧
    (∀ j, a ≤ j → j + 1 < a + m →
      (speakerOf sp j = c.speaker ∨ isBlank (textOf segs j) = true)) ∧
    (3 ≤ m → stopOf segs (a + m - 2) - startOf segs a < dur)

def GoodCur (segs : List Seg) (sp : List (ℕ × String)) (dur : ℚ) (k : ℕ)
    (cur : IChunk) : Prop :=
  ∃ a, a ≤ k ∧ cur.idxs = List.range' a (k - a) ∧
    (a = k → cur = initIChunk) ∧
    (a < k →
      cur.start_time = some (startOf segs a) ∧
      cur.end_time = some (stopOf segs (k - 1)) ∧
      (∀ j, a ≤ j → j < k →
        (speakerOf sp j = cur.speaker ∨ isBlank (textOf segs j) = true)) ∧
      (isBlank cur.text = true → ∀ j, a ≤ j → j < k → isBlank (textOf segs j) = true) ∧
      (a + 2 ≤ k → stopOf segs (k - 1) - startOf segs a < dur) ∧
      (a + 3 ≤ k → stopOf segs (k - 2) - startOf segs a < dur))

def Covered (cs : List IChunk) (cur : IChunk) (k : ℕ) : Prop :=
  ∀ j, j < k → (∃ c ∈ cs, j ∈ c.idxs) ∨ j ∈ cur.idxs

def CountOK (cs : List IChunk) (cur : IChunk) (k : ℕ) : Prop :=
  ∀ j, ((cs.map IChunk.idxs).flatten.count j + cur.idxs.count j ≤ 2) ∧
    (k ≤ j → (cs.map IChunk.idxs).flatten.count j = 0 ∧ cur.idxs.count j = 0)

def ChunkInv (segs : List Seg) (sp : List (ℕ × String)) (dur : ℚ) (k : ℕ)
    (st : List IChunk × IChunk) : Prop :=
  (∀ c ∈ st.1, GoodChunk segs sp dur c) ∧ GoodCur segs sp dur k st.2 ∧
    Covered st.1 st.2 k ∧ CountOK st.1 st.2 k

lemma textOf_eq {segs : List Seg} {k : ℕ} {seg : Seg}
    (h : segs.get? k = some seg) : textOf segs k = seg.text := by
  simp only [textOf]; rw [h]; rfl

lemma startOf_eq {segs : List Seg} {k : ℕ} {seg : Seg}
    (h : segs.get? k = some seg) : startOf segs k = seg.start := by
  simp only [startOf]; rw [h]; rfl

lemma stopOf_eq {segs : List Seg} {k : ℕ} {seg : Seg}
    (h : segs.get? k = some seg) : stopOf segs k = seg.stop := by
  simp only [stopOf]; rw [h]; rfl

lemma goodChunk_closed (segs : List Seg) (sp : List (ℕ × String)) (dur : ℚ)
    (k a : ℕ) (seg : Seg) (c2 : IChunk)
    (hseg : segs.get? k = some seg) (hak : a ≤ k)
    (hc2i : c2.idxs = List.range' a (k - a) ++ [k])
    (hspk2 : ∀ j, a ≤ j → j < k →
      (speakerOf sp j = c2.speaker ∨ isBlank (textOf segs j) = true))
    (hs2 : a + 2 ≤ k → stopOf segs (k - 1) - startOf segs a < dur) :
    GoodChunk segs sp dur c2 := by
  have hkn : k < segs.length := (List.get?_eq_some.mp hseg).1
  refine ⟨a, k - a + 1, ?_, by omega, by omega, ?_, ?_⟩
  · rw [hc2i, range'_snoc]
    congr 2
    omega
  · intro j hj hj2
    exact hspk2 j hj (by omega)
  · intro h3
    have h := hs2 (by omega)
    have he : a + (k - a + 1) - 2 = k - 1 := by omega
    rw [he]
    exact h

lemma goodCur_fresh (segs : List Seg) (sp : List (ℕ × String)) (dur : ℚ)
    (k : ℕ) (seg : Seg) (hseg : segs.get? k = some seg) (c : IChunk)
    (hx : c.idxs = [k]) (hs : c.start_time = some seg.start)
    (he : c.end_time = some seg.stop) (hspk : c.speaker = speakerOf sp k)
    (hb : isBlank c.text = true → isBlank seg.text = true) :
    GoodCur segs sp dur (k + 1) c := by
  refine ⟨k, by omega, ?_, by omega, ?_⟩
  · rw [hx]
    have : k + 1 - k = 1 := by omega
    rw [this, List.range'_one]
  · intro _
    have hj : ∀ j : ℕ, k ≤ j → j < k + 1 → j = k := by omega
    refine ⟨?_, ?_, ?_, ?_, by omega, by omega⟩
    · rw [hs, startOf_eq hseg]
    · rw [he]
      have : k + 1 - 1 = k := by omega
      rw [this, stopOf_eq hseg]
    · intro j h1 h2
      rw [hj j h1 h2, hspk]
      exact Or.inl rfl
    · intro hbt j h1 h2
      rw [hj j h1 h2]
      rw [textOf_eq hseg]
      exact hb hbt

/-- Evaluation of the loop body on the still-unopened accumulator:
the speaker-change branch cannot fire (the accumulator speaker was just set
to this segment's speaker), so only the duration test decides. -/
lemma chunkStepI_fresh (sp : List (ℕ × String)) (dur : ℚ) (k : ℕ) (seg : Seg)
    (cs : List IChunk) :
    chunkStepI sp dur k seg (cs, initIChunk) =
      if dur ≤ seg.stop - seg.start then
        (cs ++ [⟨"" ++ " " ++ seg.text, some seg.start, some seg.stop,
            seg.words, speakerOf sp k, [k]⟩],
          ⟨seg.text, some seg.start, some seg.stop, seg.words, speakerOf sp k, [k]⟩)
      else
        (cs, ⟨"" ++ " " ++ seg.text, some seg.start, some seg.stop,
          seg.words, speakerOf sp k, [k]⟩) := by
  simp [chunkStepI, initIChunk]

/-- Evaluation of the loop body once the accumulator is open
(`start_time` is not `None`). -/
lemma chunkStepI_started (sp : List (ℕ × String)) (dur : ℚ) (k : ℕ) (seg : Seg)
    (cs : List IChunk) (cur : IChunk) (h : ¬ cur.start_time = none) :
    chunkStepI sp dur k seg (cs, cur) =
      (if speakerOf sp k ≠ cur.speaker ∧
          isBlank (cur.text ++ " " ++ seg.text) = false then
        (cs ++ [⟨cur.text ++ " " ++ seg.text, cur.start_time, some seg.stop,
            cur.words ++ seg.words, cur.speaker, cur.idxs ++ [k]⟩],
          ⟨seg.text, some seg.start, some seg.stop, seg.words, speakerOf sp k, [k]⟩)
      else if dur ≤ seg.stop - cur.start_time.getD 0 then
        (cs ++ [⟨cur.text ++ " " ++ seg.text, cur.start_time, some seg.stop,
            cur.words ++ seg.words, cur.speaker, cur.idxs ++ [k]⟩],
          ⟨seg.text, some seg.start, some seg.stop, seg.words, speakerOf sp k, [k]⟩)
      else
        (cs, ⟨cur.text ++ " " ++ seg.text, cur.start_time, some seg.stop,
          cur.words ++ seg.words, cur.speaker, cur.idxs ++ [k]⟩)) := by
  simp [chunkStepI, h]

lemma count_single (j k : ℕ) : List.count j [k] = if j = k then 1 else 0 := by
  by_cases h : j = k <;> simp [h]

lemma chunkInv_step (segs : List Seg) (sp : List (ℕ × String)) (dur : ℚ)
    (k : ℕ) (seg : Seg) (hseg : segs.get? k = some seg)
    (st : List IChunk × IChunk) (h : ChunkInv segs sp dur k st) :
    ChunkInv segs sp dur (k + 1) (chunkStepI sp dur k seg st) := by
  obtain ⟨cs, cur⟩ := st
  obtain ⟨hGood, ⟨a, hak, hidx, hinit, hlt⟩, hCov, hCnt⟩ := h
  dsimp only at hGood hidx hinit hlt hCov hCnt
  have hkn : k < segs.length := (List.get?_eq_some.mp hseg).1
  rcases eq_or_lt_of_le hak with ha | ha
  · -- the accumulator is still the initial one
    have hc : cur = initIChunk := hinit ha
    subst hc
    rw [chunkStepI_fresh]
    have hCov' : ∀ j, j < k → ∃ c ∈ cs, j ∈ c.idxs := by
      intro j hj
      rcases hCov j hj with h1 | h1
      · exact h1
      · simp [initIChunk] at h1
    split_ifs with hd
    · refine ⟨?_, ?_, ?_, ?_⟩
      · intro c hc
        rcases List.mem_append.mp hc with hc | hc
        · exact hGood c hc
        · rw [List.mem_singleton.mp hc]
          refine goodChunk_closed segs sp dur k k seg _ hseg le_rfl ?_
            (by omega) (by omega)
          simp
      · exact goodCur_fresh segs sp dur k seg hseg _ rfl rfl rfl rfl fun hb => hb
      · intro j hj
        rcases Nat.lt_succ_iff_lt_or_eq.mp hj with hj | hj
        · obtain ⟨c, hc1, hc2⟩ := hCov' j hj
          exact Or.inl ⟨c, List.mem_append_left _ hc1, hc2⟩
        · exact Or.inr (by simp [hj])
      · intro j
        have h1 := (hCnt j).1
        have h2 := (hCnt j).2
        simp only [initIChunk, List.count_nil] at h1 h2
        constructor
        · by_cases hj : j = k
          · subst hj
            have := h2 le_rfl
            simp [List.map_append, List.flatten_append, List.count_append,
              count_single, this.1]
          · simp only [List.map_append, List.flatten_append, List.count_append]
            simp [count_single, hj]
            omega
        · intro hjk
          have hz := h2 (by omega)
          have hjne : ¬ j = k := by omega
          simp [List.map_append, List.flatten_append, List.count_append,
            count_single, hjne, hz.1]
    · refine ⟨hGood, ?_, ?_, ?_⟩
      · exact goodCur_fresh segs sp dur k seg hseg _ rfl rfl rfl rfl
          fun hb => (isBlank_of_append_blank hb).2
      · intro j hj
        rcases Nat.lt_succ_iff_lt_or_eq.mp hj with hj | hj
        · obtain ⟨c, hc1, hc2⟩ := hCov' j hj
          exact Or.inl ⟨c, hc1, hc2⟩
        · exact Or.inr (by simp [hj])
      · intro j
        have h1 := (hCnt j).1
        have h2 := (hCnt j).2
        simp only [initIChunk, List.count_nil] at h1 h2
        constructor
        · by_cases hj : j = k
          · subst hj
            have := h2 le_rfl
            simp [count_single, this.1]
          · simp [count_single, hj]
            omega
        · intro hjk
          have hz := h2 (by omega)
          have hjne : ¬ j = k := by omega
          simp [count_single, hjne, hz.1]
  · -- the accumulator is open: a < k
    obtain ⟨hst, hen, hspk, hbl, hs2, hs3⟩ := hlt ha
    have hsn : ¬ cur.start_time = none := by rw [hst]; simp
    rw [chunkStepI_started sp dur k seg cs cur hsn]
    have hkcur : cur.idxs.count k = 0 := by
      refine List.count_eq_zero.mpr ?_
      rw [hidx]
      intro hmem
      have := List.mem_range'_1.mp hmem
      omega
    have hsnoc : cur.idxs ++ [k] = List.range' a (k - a + 1) := by
      rw [hidx, range'_snoc]
      congr 2
      omega
    -- the chunk emitted by either closing branch, and the fresh accumulator
    have Hemit : ChunkInv segs sp dur (k + 1)
        (cs ++ [⟨cur.text ++ " " ++ seg.text, cur.start_time, some seg.stop,
            cur.words ++ seg.words, cur.speaker, cur.idxs ++ [k]⟩],
          ⟨seg.text, some seg.start, some seg.stop, seg.words, speakerOf sp k, [k]⟩) := by
      refine ⟨?_, ?_, ?_, ?_⟩
      · intro c hc
        rcases List.mem_append.mp hc with hc | hc
        · exact hGood c hc
        · rw [List.mem_singleton.mp hc]
          refine goodChunk_closed segs sp dur k a seg _ hseg (by omega) ?_ ?_ hs2
          · rw [hidx]
          · intro j h1 h2
            exact hspk j h1 h2
      · exact goodCur_fresh segs sp dur k seg hseg _ rfl rfl rfl rfl fun hb => hb
      · intro j hj
        rcases Nat.lt_succ_iff_lt_or_eq.mp hj with hj | hj
        · rcases hCov j hj with h1 | h1
          · obtain ⟨c, hc1, hc2⟩ := h1
            exact Or.inl ⟨c, List.mem_append_left _ hc1, hc2⟩
          · refine Or.inl ⟨_, List.mem_append_right _ (List.mem_singleton.mpr rfl), ?_⟩
            exact List.mem_append_left _ h1
        · exact Or.inr (by simp [hj])
      · intro j
        have h1 := (hCnt j).1
        have h2 := (hCnt j).2
        constructor
        · by_cases hj : j = k
          · subst hj
            have := h2 le_rfl
            simp [List.map_append, List.flatten_append, List.count_append,
              count_single, this.1, this.2]
          · simp only [List.map_append, List.flatten_append, List.count_append]
            simp [count_single, hj]
            omega
        · intro hjk
          have hz := h2 (by omega)
          have hjne : ¬ j = k := by omega
          simp [List.map_append, List.flatten_append, List.count_append,
            count_single, hjne, hz.1, hz.2]
    split_ifs with hb1 hb2
    · exact Hemit
    · exact Hemit
    · -- no closure: the accumulator keeps growing
      refine ⟨hGood, ?_, ?_, ?_⟩
      · refine ⟨a, by omega, ?_, by omega, ?_⟩
        · show cur.idxs ++ [k] = List.range' a (k + 1 - a)
          rw [hsnoc]
          congr 1
          omega
        · intro _
          refine ⟨hst, ?_, ?_, ?_, ?_, ?_⟩
          · show some seg.stop = some (stopOf segs (k + 1 - 1))
            have : k + 1 - 1 = k := by omega
            rw [this, stopOf_eq hseg]
          · intro j h1 h2
            rcases Nat.lt_succ_iff_lt_or_eq.mp h2 with h2 | h2
            · exact hspk j h1 h2
            · subst h2
              by_cases hsp : speakerOf sp j = cur.speaker
              · exact Or.inl hsp
              · have hbt : ¬ isBlank (cur.text ++ " " ++ seg.text) = false := by
                  intro hfalse
                  exact hb1 ⟨hsp, hfalse⟩
                have hbt' : isBlank (cur.text ++ " " ++ seg.text) = true := by
                  revert hbt
                  cases isBlank (cur.text ++ " " ++ seg.text) <;> simp
                rw [textOf_eq hseg]
                exact Or.inr (isBlank_of_append_blank hbt').2
          · intro hbt j h1 h2
            obtain ⟨hba, hbb⟩ := isBlank_of_append_blank hbt
            rcases Nat.lt_succ_iff_lt_or_eq.mp h2 with h2 | h2
            · exact hbl hba j h1 h2
            · subst h2
              rw [textOf_eq hseg]
              exact hbb
          · intro _
            have : k + 1 - 1 = k := by omega
            rw [this, stopOf_eq hseg]
            have := lt_of_not_le hb2
            rw [hst] at this
            simpa using this
          · intro h3
            have : k + 1 - 2 = k - 1 := by omega
            rw [this]
            exact hs2 (by omega)
      · intro j hj
        rcases Nat.lt_succ_iff_lt_or_eq.mp hj with hj | hj
        · rcases hCov j hj with h1 | h1
          · exact Or.inl h1
          · exact Or.inr (List.mem_append_left _ h1)
        · exact Or.inr (List.mem_append_right _ (by simp [hj]))
      · intro j
        have h1 := (hCnt j).1
        have h2 := (hCnt j).2
        constructor
        · by_cases hj : j = k
          · subst hj
            have := h2 le_rfl
            simp [List.count_append, count_single, this.1, this.2]
          · simp [List.count_append, count_single, hj]
            omega
        · intro hjk
          have hz := h2 (by omega)
          have hjne : ¬ j = k := by omega
          simp [List.count_append, count_single, hjne, hz.1, hz.2]

lemma chunkInv_init (segs : List Seg) (sp : List (ℕ × String)) (dur : ℚ) :
    ChunkInv segs sp dur 0 ([], initIChunk) := by
  refine ⟨by simp, ⟨0, le_rfl, by simp [initIChunk], fun _ => rfl, by omega⟩,
    fun j hj => absurd hj (by omega), fun j => by simp [initIChunk]⟩

lemma chunkAuxI_inv (segs : List Seg) (sp : List (ℕ × String)) (dur : ℚ) :
    ∀ (rest : List Seg) (k : ℕ) (st : List IChunk × IChunk),
      segs.drop k = rest → ChunkInv segs sp dur k st →
      ChunkInv segs sp dur (k + rest.length) (chunkAuxI sp dur k rest st)
  | [], k, st, _, h => by simpa using h
  | seg :: rest, k, st, hdrop, h => by
    have hseg : segs.get? k = some seg := by
      have h0 : (segs.drop k).get? 0 = some seg := by rw [hdrop]; rfl
      have h1 := List.get?_drop segs k 0
      rw [h0] at h1
      simpa using h1.symm
    have hdrop' : segs.drop (k + 1) = rest := by
      have h1 : segs.drop (k + 1) = (segs.drop k).drop 1 := by
        rw [← List.drop_drop]
      rw [h1, hdrop]
      rfl
    have h' := chunkInv_step segs sp dur k seg hseg st h
    have hrec := chunkAuxI_inv segs sp dur rest (k + 1) _ hdrop' h'
    have harith : k + (seg :: rest).length = k + 1 + rest.length := by
      simp
      omega
    rw [chunkAuxI, harith]
    exact hrec

/-- The invariants, transported to the final output of the chunker. -/
lemma chunkI_good (segs : List Seg) (sp : List (ℕ × String)) (dur : ℚ) :
    (∀ c ∈ chunkI segs sp dur, GoodChunk segs sp dur c) ∧
    (∀ j s, segs.get? j = some s → isBlank s.text = false →
      ∃ c ∈ chunkI segs sp dur, j ∈ c.idxs) ∧
    (∀ j, ((chunkI segs sp dur).map IChunk.idxs).flatten.count j ≤ 2) := by
  have H := chunkAuxI_inv segs sp dur segs 0 ([], initIChunk) (by simp)
    (chunkInv_init segs sp dur)
  rw [Nat.zero_add] at H
  obtain ⟨hGood, ⟨a, han, hidx, hinit, hlt⟩, hCov, hCnt⟩ := H
  set st := chunkAuxI sp dur 0 segs ([], initIChunk) with hst
  have hflush : ∀ (hb : isBlank st.2.text = false),
      chunkI segs sp dur = st.1 ++ [st.2] := by
    intro hb
    unfold chunkI
    rw [← hst, if_pos hb]
  have hnoflush : ∀ (hb : ¬ isBlank st.2.text = false),
      chunkI segs sp dur = st.1 := by
    intro hb
    unfold chunkI
    rw [← hst, if_neg hb]
  refine ⟨?_, ?_, ?_⟩
  · intro c hc
    by_cases hb : isBlank st.2.text = false
    · rw [hflush hb] at hc
      rcases List.mem_append.mp hc with hc | hc
      · exact hGood c hc
      · rw [List.mem_singleton.mp hc]
        rcases eq_or_lt_of_le han with ha | ha
        · exfalso
          rw [hinit ha] at hb
          simp [initIChunk, isBlank_empty] at hb
        · obtain ⟨hsta, hena, hspk, hbl, hs2, hs3⟩ := hlt ha
          refine ⟨a, segs.length - a, hidx, by omega, by omega, ?_, ?_⟩
          · intro j h1 h2
            exact hspk j h1 (by omega)
          · intro h3
            have h := hs3 (by omega)
            have he : a + (segs.length - a) - 2 = segs.length - 2 := by omega
            rw [he]
            exact h
    · rw [hnoflush hb] at hc
      exact hGood c hc
  · intro j s hjs hsb
    have hjn : j < segs.length := (List.get?_eq_some.mp hjs).1
    rcases hCov j hjn with h1 | h1
    · obtain ⟨c, hc1, hc2⟩ := h1
      by_cases hb : isBlank st.2.text = false
      · exact ⟨c, by rw [hflush hb]; exact List.mem_append_left _ hc1, hc2⟩
      · exact ⟨c, by rw [hnoflush hb]; exact hc1, hc2⟩
    · have ha : a < segs.length := by
        rcases eq_or_lt_of_le han with ha | ha
        · exfalso
          rw [hinit ha] at h1
          simp [initIChunk] at h1
        · exact ha
      obtain ⟨hsta, hena, hspk, hbl, hs2, hs3⟩ := hlt ha
      have hb : isBlank st.2.text = false := by
        by_contra hb
        have hbt : isBlank st.2.text = true := by
          revert hb
          cases isBlank st.2.text <;> simp
        have hmem := List.mem_range'_1.mp (by rw [← hidx]; exact h1)
        have := hbl hbt j (by omega) (by omega)
        rw [textOf_eq hjs] at this
        rw [this] at hsb
        exact Bool.true_eq_false.mp hsb
      exact ⟨st.2, by rw [hflush hb]; exact List.mem_append_right _ (by simp), h1⟩
  · intro j
    have h1 := (hCnt j).1
    by_cases hb : isBlank st.2.text = false
    · rw [hflush hb]
      simp only [List.map_append, List.flatten_append, List.count_append]
      simpa using h1
    · rw [hnoflush hb]
      omega

/-! ## Concrete inputs used by the chunker claims -/

/-- The spec's worked example: segments 0-10s, 10.5-15s, 18-25s. -/
def exSegs : List Seg :=
  [⟨0, 10, "hello", []⟩, ⟨10.5, 15, "world", []⟩, ⟨18, 25, "ok", []⟩]

/-- The spec's speaker assignment `[0, 0, 1]` for those segments. -/
def exSp : List (ℕ × String) :=
  [(0, "Speaker_0"), (1, "Speaker_0"), (2, "Speaker_1")]

lemma evalChunkIEx : chunkI exSegs exSp 30 =
    [⟨" hello world ok", some 0, some 25, [], "Speaker_0", [0, 1, 2]⟩,
     ⟨"ok", some 18, some 25, [], "Speaker_1", [2]⟩] := by
  norm_num +decide [chunkI, chunkAuxI, chunkStepI, initIChunk, speakerOf,
    isBlank, exSegs, exSp]

lemma evalChunkEx : chunk_transcript_by_time exSegs exSp 30 =
    [⟨" hello world ok", some 0, some 25, [], "Speaker_0"⟩,
     ⟨"ok", some 18, some 25, [], "Speaker_1"⟩] := by
  rw [← chunkI_eq_chunk, evalChunkIEx]
  rfl

/-- A single segment longer than the 30 s threshold. -/
def segC2 : Seg := ⟨0, 40, "a", []⟩

lemma evalChunkIC2 : chunkI [segC2] [] 30 =
    [⟨" a", some 0, some 40, [], "Unknown", [0]⟩,
     ⟨"a", some 0, some 40, [], "Unknown", [0]⟩] := by
  norm_num +decide [chunkI, chunkAuxI, chunkStepI, initIChunk, speakerOf,
    isBlank, segC2]

/-- A 40 s segment followed by a 5 s one, same speaker. -/
def segsC3 : List Seg := [⟨0, 40, "a", []⟩, ⟨40, 45, "b", []⟩]

lemma evalChunkIC3 : chunkI segsC3 [] 30 =
    [⟨" a", some 0, some 40, [], "Unknown", [0]⟩,
     ⟨"a b", some 0, some 45, [], "Unknown", [0, 1]⟩,
     ⟨"b", some 40, some 45, [], "Unknown", [1]⟩] := by
  norm_num +decide [chunkI, chunkAuxI, chunkStepI, initIChunk, speakerOf,
    isBlank, segsC3]

/-- Three same-speaker segments whose accumulated span crosses 30 s only at
the third. -/
def segsW3 : List Seg := [⟨0, 10, "a", []⟩, ⟨10, 20, "b", []⟩, ⟨20, 40, "c", []⟩]

lemma evalChunkIW3 : chunkI segsW3 [] 30 =
    [⟨" a b c", some 0, some 40, [], "Unknown", [0, 1, 2]⟩,
     ⟨"c", some 20, some 40, [], "Unknown", [2]⟩] := by
  norm_num +decide [chunkI, chunkAuxI, chunkStepI, initIChunk, speakerOf,
    isBlank, segsW3]

/-! ## Claims C1-C3: the temporal chunker -/

/-- C1 (amended): a speaker change closes the accumulating chunk only after
the triggering segment has been absorbed, so a chunk is speaker-homogeneous
only up to its final contributing segment: every contributing segment except
possibly the last carries the chunk's speaker label, unless that segment's
text is pure whitespace.  (Stated over the instrumented chunker, which
computes exactly the chunks of `chunk_transcript_by_time`.) -/
theorem C1_speaker_homogeneity_amended (segs : List Seg)
    (sp : List (ℕ × String)) (dur : ℚ) :
    (chunkI segs sp dur).map eraseI = chunk_transcript_by_time segs sp dur ∧
    ∀ c ∈ chunkI segs sp dur, ∀ j ∈ c.idxs.dropLast,
      speakerOf sp j = c.speaker ∨ isBlank (textOf segs j) = true := by
  refine ⟨chunkI_eq_chunk segs sp dur, ?_⟩
  intro c hc j hj
  obtain ⟨a, m, hidx, h1m, _, hspk, _⟩ := (chunkI_good segs sp dur).1 c hc
  rcases m with _ | m'
  · omega
  · rw [hidx, range'_snoc, List.dropLast_concat] at hj
    have hjm := List.mem_range'_1.mp hj
    exact hspk j hjm.1 (by omega)

/-- C1 counterexample: on the spec's own example (segments 0-10s, 10.5-15s,
18-25s with speakers [0,0,1]) the first produced chunk is labeled Speaker_0
yet its contributing segments are 0, 1 AND 2 — and segment 2 carries
Speaker_1 — and it ends at 25s, not 15s. -/
theorem C1_counterexample :
    (chunk_transcript_by_time exSegs exSp 30).map
        (fun c => (c.start_time, c.end_time, c.speaker)) =
      [(some 0, some 25, "Speaker_0"), (some 18, some 25, "Speaker_1")] ∧
    (chunkI exSegs exSp 30).map IChunk.idxs = [[0, 1, 2], [2]] ∧
    speakerOf exSp 0 = "Speaker_0" ∧ speakerOf exSp 2 = "Speaker_1" ∧
    ¬ (chunk_transcript_by_time exSegs exSp 30).map Chunk.end_time =
        [some 15, some 25] := by
  rw [evalChunkEx, evalChunkIEx]
  refine ⟨rfl, rfl, rfl, rfl, ?_⟩
  intro h
  have h15 : (25 : ℚ) = 15 := by
    have := List.head_eq_of_cons_eq h
    simpa using this
  norm_num at h15

/-- C1 witness: the amended theorem applied to the first chunk of the
example and its non-final contributing segment 1. -/
theorem C1_witness :
    speakerOf exSp 1 = "Speaker_0" ∨ isBlank (textOf exSegs 1) = true := by
  have h := (C1_speaker_homogeneity_amended exSegs exSp 30).2
    ⟨" hello world ok", some 0, some 25, [], "Speaker_0", [0, 1, 2]⟩
    (by rw [evalChunkIEx]; simp) 1 (by decide)
  simpa using h

/-- C2 (amended): no segment is split and every segment with non-whitespace
text lands in at least one produced chunk, but a segment that triggers a
chunk closure is absorbed into the closing chunk AND re-seeds the next one,
so its text can appear in two (adjacent) chunks; no index appears in more
than two. -/
theorem C2_segment_coverage_amended (segs : List Seg)
    (sp : List (ℕ × String)) (dur : ℚ) :
    (chunkI segs sp dur).map eraseI = chunk_transcript_by_time segs sp dur ∧
    (∀ j s, segs.get? j = some s → isBlank s.text = false →
      ∃ c ∈ chunkI segs sp dur, j ∈ c.idxs) ∧
    (∀ j, ((chunkI segs sp dur).map IChunk.idxs).flatten.count j ≤ 2) := by
  exact ⟨chunkI_eq_chunk segs sp dur, (chunkI_good segs sp dur).2.1,
    (chunkI_good segs sp dur).2.2⟩

/-- C2 counterexample: a single 40 s segment "a" is chunked into TWO chunks,
both containing its text — the segment's text does not appear in exactly one
chunk. -/
theorem C2_counterexample :
    (chunkI [segC2] [] 30).map IChunk.idxs = [[0], [0]] ∧
    ((chunkI [segC2] [] 30).map IChunk.idxs).flatten.count 0 = 2 ∧
    ¬ ((chunkI [segC2] [] 30).map IChunk.idxs).flatten.count 0 = 1 ∧
    (chunk_transcript_by_time [segC2] [] 30).map Chunk.text = [" a", "a"] := by
  rw [← chunkI_eq_chunk, evalChunkIC2]
  refine ⟨rfl, rfl, by decide, rfl⟩

/-- C2 witness: the amended theorem locates segment 0 of the single-segment
input inside a produced chunk. -/
theorem C2_witness : ∃ c ∈ chunkI [segC2] [] 30, 0 ∈ c.idxs := by
  exact (C2_segment_coverage_amended [segC2] [] 30).2.1 0 segC2 rfl (by decide)

/-- C3 (amended): each produced chunk's contributing indices form a
non-empty contiguous block of the segment range, and for every chunk with at
least THREE contributing segments the accumulator's span immediately before
absorbing the closing segment is strictly below the threshold.  Chunks with
one or two contributing segments are exempt: a chunk whose first segment
alone reaches the threshold closes at the very next segment, with a
pre-absorption span already above the threshold; moreover the full closed
span can exceed the threshold by an inter-segment gap in addition to the
last segment's length. -/
theorem C3_duration_bound_amended (segs : List Seg)
    (sp : List (ℕ × String)) (dur : ℚ) :
    (chunkI segs sp dur).map eraseI = chunk_transcript_by_time segs sp dur ∧
    (∀ c ∈ chunkI segs sp dur,
      ∃ a m, c.idxs = List.range' a m ∧ 1 ≤ m ∧ a + m ≤ segs.length) ∧
    (∀ (c : IChunk) (a m : ℕ), c ∈ chunkI segs sp dur →
      c.idxs = List.range' a m → 3 ≤ m →
      stopOf segs (a + m - 2) - startOf segs a < dur) := by
  refine ⟨chunkI_eq_chunk segs sp dur, ?_, ?_⟩
  · intro c hc
    obtain ⟨a, m, hidx, h1m, hlen, _, _⟩ := (chunkI_good segs sp dur).1 c hc
    exact ⟨a, m, hidx, h1m, hlen⟩
  · intro c a m hc hidx h3
    obtain ⟨a', m', hidx', h1m', hlen', hspk', hs'⟩ :=
      (chunkI_good segs sp dur).1 c hc
    have hmm : m' = m := by
      have := congrArg List.length (hidx'.symm.trans hidx)
      simpa using this
    subst hmm
    have haa : a' = a := by
      rcases m' with _ | m''
      · omega
      · have h := hidx'.symm.trans hidx
        rw [List.range'_succ, List.range'_succ] at h
        exact (List.cons_eq_cons.mp h).1
    subst haa
    exact hs' h3

/-- C3 counterexample: with segments 0-40s and 40-45s (same speaker) and
threshold 30, the code produces a chunk contributed by BOTH segments whose
span 45 s exceeds the threshold by 15 s — more than the 5 s length of its
last absorbed segment — because the duration branch re-seeds the new
accumulator with the full triggering segment. -/
theorem C3_counterexample :
    (chunkI segsC3 [] 30).map (fun c => (c.idxs, c.start_time, c.end_time)) =
      [([0], some 0, some 40), ([0, 1], some 0, some 45),
        ([1], some 40, some 45)] ∧
    ¬ ((45 : ℚ) - 0 ≤ 30 + ((45 : ℚ) - 40)) := by
  rw [evalChunkIC3]
  refine ⟨rfl, by norm_num⟩

/-- C3 witness: the amended theorem applied to the three-segment chunk of
`segsW3` gives the pre-absorption bound 20 - 0 < 30. -/
theorem C3_witness : stopOf segsW3 1 - startOf segsW3 0 < 30 := by
  have h := (C3_duration_bound_amended segsW3 [] 30).2.2
    ⟨" a b c", some 0, some 40, [], "Unknown", [0, 1, 2]⟩ 0 3
    (by rw [evalChunkIW3]; simp) (by decide) (by decide)
  simpa using h

/-! ## Claim C7: the speaker segmenter -/

lemma identAux_eq_map : ∀ (rest : List Seg) (k : ℕ) (prev : Seg),
    identSpkAux k prev (mkLabel k) rest = (spkIdxAux k prev rest).map mkLabel
  | [], _, _ => rfl
  | s :: rest, k, prev => by
    by_cases h : s.start - prev.stop > 2 <;>
      simp [identSpkAux, spkIdxAux, h, identAux_eq_map rest]

lemma spkIdxAux_length : ∀ (rest : List Seg) (k : ℕ) (prev : Seg),
    (spkIdxAux k prev rest).length = rest.length
  | [], _, _ => rfl
  | s :: rest, k, prev => by
    by_cases h : s.start - prev.stop > 2 <;>
      simp [spkIdxAux, h, spkIdxAux_length rest]

lemma spkIdxAux_head : ∀ (rest : List Seg) (k : ℕ) (prev : Seg) (s' : Seg)
    (b' : ℕ), rest[0]? = some s' → (spkIdxAux k prev rest)[0]? = some b' →
    b' = if s'.start - prev.stop > 2 then k + 1 else k
  | [], _, _, _, _ => by intro h; simp at h
  | s :: rest, k, prev, s', b' => by
    intro h1 h2
    have hs : s = s' := by simpa using h1
    subst hs
    by_cases h : s.start - prev.stop > 2 <;> simp [spkIdxAux, h] at h2 ⊢ <;>
      omega

lemma spkIdxAux_step : ∀ (rest : List Seg) (k : ℕ) (prev : Seg) (j : ℕ)
    (s s' : Seg) (b b' : ℕ),
    rest[j]? = some s → rest[j + 1]? = some s' →
    (spkIdxAux k prev rest)[j]? = some b →
    (spkIdxAux k prev rest)[j + 1]? = some b' →
    b' = if s'.start - s.stop > 2 then b + 1 else b
  | [], _, _, _, _, _, _, _ => by intro h; simp at h
  | c :: rest, k, prev, 0, s, s', b, b' => by
    intro h1 h2 h3 h4
    have hc : c = s := by simpa using h1
    subst hc
    by_cases h : c.start - prev.stop > 2 <;> simp [spkIdxAux, h] at h2 h3 h4 <;>
      [skip; skip] <;> subst h3 <;> exact spkIdxAux_head rest _ c s' b' h2 h4
  | c :: rest, k, prev, j + 1, s, s', b, b' => by
    intro h1 h2 h3 h4
    by_cases h : c.start - prev.stop > 2 <;> simp [spkIdxAux, h] at h1 h2 h3 h4 <;>
      exact spkIdxAux_step rest _ c j s s' b b' h1 h2 h3 h4

lemma spkIdxAux_chain : ∀ (rest : List Seg) (k : ℕ) (prev : Seg),
    List.Chain' (· ≤ ·) (k :: spkIdxAux k prev rest)
  | [], _, _ => by simp [spkIdxAux]
  | s :: rest, k, prev => by
    by_cases h : s.start - prev.stop > 2 <;> simp only [spkIdxAux, h, if_pos, if_neg,
        reduceIte, ite_true, ite_false] <;>
      exact List.chain'_cons.mpr ⟨by omega, spkIdxAux_chain rest _ s⟩

/-- C7: the segmenter labels segment 0 `Speaker_0`, increments the counter
on a pause of more than 2 s and otherwise repeats the previous label; the
label list is exactly `Speaker_<k>` over the counter sequence `speakerIdx`,
covers every segment index, and the counter sequence is non-decreasing
(advancing in steps of one), so no speaker index is reused once advanced
past. -/
theorem C7_segmenter_labels (segs : List Seg) :
    identify_speakers segs = (speakerIdx segs).map mkLabel ∧
    (speakerIdx segs).length = segs.length ∧
    (segs ≠ [] → (speakerIdx segs).head? = some 0) ∧
    (∀ (i : ℕ) (si si' : Seg) (b b' : ℕ),
      segs.get? i = some si → segs.get? (i + 1) = some si' →
      (speakerIdx segs)[i]? = some b →
      (speakerIdx segs)[i + 1]? = some b' →
      b' = if si'.start - si.stop > 2 then b + 1 else b) ∧
    List.Chain' (· ≤ ·) (speakerIdx segs) := by
  rcases segs with _ | ⟨s0, rest⟩
  · exact ⟨rfl, rfl, fun h => absurd rfl h, fun i si si' b b' h => by simp at h,
      by simp [speakerIdx]⟩
  · refine ⟨?_, ?_, ?_, ?_, ?_⟩
    · simp only [identify_speakers, speakerIdx, List.map_cons]
      rw [identAux_eq_map]
    · simp [speakerIdx, spkIdxAux_length]
    · intro _
      rfl
    · intro i si si' b b' h1 h2 h3 h4
      rcases i with _ | i
      · have hs : s0 = si := by simpa using h1
        subst hs
        have hb : b = 0 := by
          have h30 := h3
          simp [speakerIdx] at h30
          omega
        subst hb
        have h4' : (spkIdxAux 0 s0 rest)[0]? = some b' := by
          simpa [speakerIdx] using h4
        have h2' : rest[0]? = some si' := by simpa using h2
        exact spkIdxAux_head rest 0 s0 si' b' h2' h4'
      · have h3' : (spkIdxAux 0 s0 rest)[i]? = some b := by
          simpa [speakerIdx] using h3
        have h4' : (spkIdxAux 0 s0 rest)[i + 1]? = some b' := by
          simpa [speakerIdx] using h4
        have h1' : rest[i]? = some si := by simpa using h1
        have h2' : rest[i + 1]? = some si' := by simpa using h2
        exact spkIdxAux_step rest 0 s0 i si si' b b' h1' h2' h3' h4'
    · exact spkIdxAux_chain rest 0 s0

/-- C7 witness: on the example segments the head label index is 0. -/
theorem C7_witness : (speakerIdx exSegs).head? = some 0 :=
  (C7_segmenter_labels exSegs).2.2.1 (by simp [exSegs])

/-! ## Claims C4, C5, C6, C10: the content index -/

lemma kwLoop_ok {μ : Type} (terms : List String) (n : ℕ) (metas : List μ)
    (dists : List ℚ) :
    ∀ (ds : List String) (i : ℕ) (fd : List String) (fm : List μ) (fs : List ℚ),
      i + ds.length ≤ metas.length → i + ds.length ≤ dists.length →
      fd.length < n →
      ∃ fm' fs', kwLoop terms n metas dists ds i (fd, fm, fs) =
        .ok (fd ++ (ds.filter (anyTermIn terms)).take (n - fd.length), fm', fs')
  | [], i, fd, fm, fs, _, _, _ => ⟨fm, fs, by simp [kwLoop]⟩
  | d :: ds, i, fd, fm, fs, hm, hd, hfd => by
    have him : i < metas.length := by simp at hm; omega
    have hid : i < dists.length := by simp at hd; omega
    have hmi : metas.get? i = some (metas.get ⟨i, him⟩) := List.get?_eq_get him
    have hdi : dists.get? i = some (dists.get ⟨i, hid⟩) := List.get?_eq_get hid
    by_cases hmatch : anyTermIn terms d = true
    · by_cases hstop : n ≤ (fd ++ [d]).length
      · have hn : n = fd.length + 1 := by simp at hstop; omega
        refine ⟨fm ++ [metas.get ⟨i, him⟩], fs ++ [dists.get ⟨i, hid⟩], ?_⟩
        simp only [kwLoop, hmatch, hmi, hdi, if_true, hstop, if_pos, reduceIte]
        have htake : (n - fd.length) = 1 := by omega
        simp [htake, hmatch]
      · have hrec := kwLoop_ok terms n metas dists ds (i + 1) (fd ++ [d])
          (fm ++ [metas.get ⟨i, him⟩]) (fs ++ [dists.get ⟨i, hid⟩])
          (by simp at hm ⊢; omega) (by simp at hd ⊢; omega)
          (by simp at hstop ⊢; omega)
        obtain ⟨fm', fs', heq⟩ := hrec
        refine ⟨fm', fs', ?_⟩
        simp only [kwLoop, hmatch, hmi, hdi, if_true, hstop, if_neg, reduceIte]
        rw [heq]
        have hns : n - fd.length = (n - (fd ++ [d]).length) + 1 := by
          simp
          omega
        simp [hns, hmatch, List.take_succ_cons]
    · have hmf : anyTermIn terms d = false := by
        revert hmatch
        cases anyTermIn terms d <;> simp
      have hnle : ¬ n ≤ fd.length := by omega
      have hrec := kwLoop_ok terms n metas dists ds (i + 1) fd fm fs
        (by simp at hm ⊢; omega) (by simp at hd ⊢; omega) hfd
      obtain ⟨fm', fs', heq⟩ := hrec
      refine ⟨fm', fs', ?_⟩
      simp only [kwLoop, hmf, Bool.false_eq_true, if_false, hnle, reduceIte]
      rw [heq]
      simp [hmf]

lemma kwLoop_len {μ : Type} (terms : List String) (n : ℕ) (metas : List μ)
    (dists : List ℚ) :
    ∀ (ds : List String) (i : ℕ) (fd : List String) (fm : List μ) (fs : List ℚ)
      (out : List String × List μ × List ℚ),
      fm.length = fd.length → fs.length = fd.length →
      kwLoop terms n metas dists ds i (fd, fm, fs) = .ok out →
      out.2.1.length = out.1.length ∧ out.2.2.length = out.1.length
  | [], i, fd, fm, fs, out, h1, h2, heq => by
    simp only [kwLoop] at heq
    cases heq
    exact ⟨h1, h2⟩
  | d :: ds, i, fd, fm, fs, out, h1, h2, heq => by
    by_cases hmatch : anyTermIn terms d = true
    · rcases hmi : metas[i]? with _ | m
      · simp [kwLoop, hmatch, hmi] at heq
      · rcases hdi : dists[i]? with _ | dist
        · simp [kwLoop, hmatch, hmi, hdi] at heq
        · have hmi' : metas.get? i = some m := by
            rw [List.get?_eq_getElem?]; exact hmi
          have hdi' : dists.get? i = some dist := by
            rw [List.get?_eq_getElem?]; exact hdi
          by_cases hstop : n ≤ (fd ++ [d]).length
          · simp only [kwLoop, hmatch, hmi, hdi, hmi', hdi', if_true, hstop,
              if_pos, reduceIte] at heq
            cases heq
            constructor <;> simp [h1, h2]
          · simp only [kwLoop, hmatch, hmi, hdi, hmi', hdi', if_true, hstop,
              if_neg, reduceIte] at heq
            exact kwLoop_len terms n metas dists ds (i + 1) (fd ++ [d])
              (fm ++ [m]) (fs ++ [dist]) out (by simp [h1]) (by simp [h2]) heq
    · have hmf : anyTermIn terms d = false := by
        revert hmatch
        cases anyTermIn terms d <;> simp
      by_cases hstop : n ≤ fd.length
      · simp only [kwLoop, hmf, Bool.false_eq_true, if_false, hstop, if_pos,
          reduceIte] at heq
        cases heq
        exact ⟨h1, h2⟩
      · simp only [kwLoop, hmf, Bool.false_eq_true, if_false, hstop, if_neg,
          reduceIte] at heq
        exact kwLoop_len terms n metas dists ds (i + 1) fd fm fs out h1 h2 heq

/-- C5: keyword search asks the backend for `2 * n` candidates and keeps, in
rank order, exactly the candidates containing at least one lowercased
whitespace-separated query term as a substring of their lowercased text,
truncated to `n`; in particular at most `n` documents are returned. -/
theorem C5_keyword_filter {μ : Type} (b : String → ℕ → Except Unit (QRes μ))
    (q : String) (n : ℕ) (r : QRes μ)
    (hb : b q (2 * n) = .ok r)
    (hm : r.metadatas.length = r.documents.length)
    (hd : r.distances.length = r.documents.length)
    (hc : r.documents.length ≤ 2 * n) :
    (keyword_search b q n).documents =
      (r.documents.filter (anyTermIn (pyTerms q))).take n ∧
    (keyword_search b q n).documents.length ≤ n := by
  rcases n with _ | n'
  · have hdocs : r.documents = [] := by
      have : r.documents.length = 0 := by omega
      exact List.length_eq_zero.mp this
    simp only [keyword_search, hb, hdocs]
    simp [kwLoop]
  · obtain ⟨fm', fs', heq⟩ := kwLoop_ok (pyTerms q) (n' + 1) r.metadatas
      r.distances r.documents 0 [] [] [] (by omega) (by omega) (by simp)
    simp only [keyword_search, hb, heq]
    refine ⟨by simp, ?_⟩
    simp [List.length_take]

/-- The backend used by the keyword-search witness: five semantically-near
documents of which exactly one contains the query term. -/
def bKW : String → ℕ → Except Unit (QRes ℕ) := fun _ m =>
  if m = 10 then
    .ok ⟨["alpha", "beta", "gamma", "delta", "my STARTUP story"],
      [0, 1, 2, 3, 4], [0, 1, 2, 3, 4]⟩
  else .ok emptyRes

/-- C5 witness: keyword search for "Startup" over that pool returns exactly
the one matching document. -/
theorem C5_witness :
    (keyword_search bKW "Startup" 5).documents = ["my STARTUP story"] := by
  have h := (C5_keyword_filter bKW "Startup" 5
    ⟨["alpha", "beta", "gamma", "delta", "my STARTUP story"],
      [0, 1, 2, 3, 4], [0, 1, 2, 3, 4]⟩ rfl rfl rfl (by decide)).1
  rw [h]
  decide

/-- Parallel lengths of the keyword-search output (needed for hybrid). -/
lemma keyword_search_parallel {μ : Type}
    (b : String → ℕ → Except Unit (QRes μ)) (q : String) (n : ℕ) :
    (keyword_search b q n).metadatas.length =
      (keyword_search b q n).documents.length ∧
    (keyword_search b q n).distances.length =
      (keyword_search b q n).documents.length := by
  rw [keyword_search]
  rcases hb : b q (2 * n) with _ | r
  · simp [emptyRes]
  · rcases hloop : kwLoop (pyTerms q) n r.metadatas r.distances r.documents 0
      ([], [], []) with _ | out
    · simp [hloop, emptyRes]
    · obtain ⟨fd, fm, fs⟩ := out
      have hlen := kwLoop_len (pyTerms q) n r.metadatas r.distances r.documents 0
        [] [] [] (fd, fm, fs) rfl rfl hloop
      simp only [hloop]
      simpa using hlen

lemma pyWordsAux_blank : ∀ (l : List Char),
    (∀ c ∈ l, c.isWhitespace = true) → pyWordsAux [] l = []
  | [], _ => rfl
  | c :: cs, h => by
    have hc := h c (by simp)
    simp only [pyWordsAux, hc, if_true, reduceIte, if_pos]
    exact pyWordsAux_blank cs fun c' hc' => h c' (by simp [hc'])

lemma toLower_whitespace (c : Char) (h : c.isWhitespace = true) :
    c.toLower = c := by
  simp only [Char.isWhitespace, Bool.or_eq_true, decide_eq_true_eq] at h
  rcases h with ((h | h) | h) | h <;> subst h <;> decide

lemma pyTerms_blank (q : String) (h : ∀ c ∈ q.data, c.isWhitespace = true) :
    pyTerms q = [] := by
  have hdata : (pyLower q).data = q.data.map Char.toLower := rfl
  rw [pyTerms, pyWords, hdata]
  refine pyWordsAux_blank _ ?_
  intro c hc
  obtain ⟨c', hc', hmap⟩ := List.mem_map.mp hc
  have hw := h c' hc'
  rw [← hmap, toLower_whitespace c' hw]
  exact hw

lemma kwLoop_noTerms {μ : Type} (n : ℕ) (metas : List μ) (dists : List ℚ) :
    ∀ (ds : List String) (i : ℕ),
      kwLoop ([] : List String) n metas dists ds i ([], [], []) = .ok ([], [], [])
  | [], _ => rfl
  | d :: ds, i => by
    have hany : anyTermIn [] d = false := rfl
    by_cases hn : n ≤ 0 <;>
      simp [kwLoop, hany, hn, kwLoop_noTerms n metas dists ds]

/-- C10: a query with no non-whitespace characters yields no query terms, so
keyword search returns the empty result shape whatever the index holds. -/
theorem C10_blank_query {μ : Type} (b : String → ℕ → Except Unit (QRes μ))
    (q : String) (n : ℕ) (hq : ∀ c ∈ q.data, c.isWhitespace = true) :
    keyword_search b q n = emptyRes := by
  rw [keyword_search, pyTerms_blank q hq]
  rcases hb : b q (2 * n) with _ | r
  · rfl
  · simp only [kwLoop_noTerms]
    rfl

/-- C10 witness: a one-space query against a non-empty candidate pool. -/
theorem C10_witness :
    keyword_search (fun (_ : String) (_ : ℕ) =>
        (.ok ⟨["some document"], [0], [0]⟩ : Except Unit (QRes ℕ))) " " 4 =
      emptyRes := by
  exact C10_blank_query _ " " 4 (by decide)

lemma hyAdd1_ok {μ : Type} (metas : List μ) (dists : List ℚ) :
    ∀ (ds : List String) (i : ℕ) (cd : List String) (cm : List μ) (cs : List ℚ),
      i + ds.length ≤ metas.length → i + ds.length ≤ dists.length →
      cm.length = cd.length → cs.length = cd.length →
      ∃ cm' cs', hyAdd1 metas dists ds i (cd, cm, cs) =
          .ok (ds.foldl dedupAdd cd, cm', cs') ∧
        cm'.length = (ds.foldl dedupAdd cd).length ∧
        cs'.length = (ds.foldl dedupAdd cd).length
  | [], _, cd, cm, cs, _, _, h1, h2 => ⟨cm, cs, by simp [hyAdd1], h1, h2⟩
  | d :: ds, i, cd, cm, cs, hm, hd, h1, h2 => by
    have him : i < metas.length := by simp at hm; omega
    have hid : i < dists.length := by simp at hd; omega
    have hmi2 : metas[i]? = some metas[i] := List.getElem?_eq_getElem him
    have hdi2 : dists[i]? = some dists[i] := List.getElem?_eq_getElem hid
    have hmi : metas.get? i = some metas[i] := by
      rw [List.get?_eq_getElem?]; exact hmi2
    have hdi : dists.get? i = some dists[i] := by
      rw [List.get?_eq_getElem?]; exact hdi2
    by_cases hin : d ∈ cd
    · obtain ⟨cm', cs', heq, hl1, hl2⟩ := hyAdd1_ok metas dists ds (i + 1) cd cm cs
        (by simp at hm ⊢; omega) (by simp at hd ⊢; omega) h1 h2
      refine ⟨cm', cs', ?_, ?_, ?_⟩ <;>
        simp [hyAdd1, hin, heq, dedupAdd, hl1, hl2]
    · obtain ⟨cm', cs', heq, hl1, hl2⟩ := hyAdd1_ok metas dists ds (i + 1)
        (cd ++ [d]) (cm ++ [metas[i]]) (cs ++ [dists[i]])
        (by simp at hm ⊢; omega) (by simp at hd ⊢; omega)
        (by simp [h1]) (by simp [h2])
      refine ⟨cm', cs', ?_, ?_, ?_⟩ <;>
        simp [hyAdd1, hin, hmi, hdi, hmi2, hdi2, heq, dedupAdd, hl1, hl2]

lemma hyAdd2_ok {μ : Type} (n : ℕ) (metas : List μ) (dists : List ℚ) :
    ∀ (ds : List String) (i : ℕ) (cd : List String) (cm : List μ) (cs : List ℚ),
      i + ds.length ≤ metas.length → i + ds.length ≤ dists.length →
      cm.length = cd.length → cs.length = cd.length →
      ∃ cm' cs', hyAdd2 n metas dists ds i (cd, cm, cs) =
          .ok (ds.foldl (backfill n) cd, cm', cs') ∧
        cm'.length = (ds.foldl (backfill n) cd).length ∧
        cs'.length = (ds.foldl (backfill n) cd).length
  | [], _, cd, cm, cs, _, _, h1, h2 => ⟨cm, cs, by simp [hyAdd2], h1, h2⟩
  | d :: ds, i, cd, cm, cs, hm, hd, h1, h2 => by
    have him : i < metas.length := by simp at hm; omega
    have hid : i < dists.length := by simp at hd; omega
    have hmi2 : metas[i]? = some metas[i] := List.getElem?_eq_getElem him
    have hdi2 : dists[i]? = some dists[i] := List.getElem?_eq_getElem hid
    have hmi : metas.get? i = some metas[i] := by
      rw [List.get?_eq_getElem?]; exact hmi2
    have hdi : dists.get? i = some dists[i] := by
      rw [List.get?_eq_getElem?]; exact hdi2
    by_cases hin : d ∉ cd ∧ cd.length < n
    · obtain ⟨cm', cs', heq, hl1, hl2⟩ := hyAdd2_ok n metas dists ds (i + 1)
        (cd ++ [d]) (cm ++ [metas[i]]) (cs ++ [dists[i]])
        (by simp at hm ⊢; omega) (by simp at hd ⊢; omega)
        (by simp [h1]) (by simp [h2])
      refine ⟨cm', cs', ?_, ?_, ?_⟩ <;>
        simp [hyAdd2, hin, hmi, hdi, hmi2, hdi2, heq, backfill, hl1, hl2]
    · obtain ⟨cm', cs', heq, hl1, hl2⟩ := hyAdd2_ok n metas dists ds (i + 1) cd cm cs
        (by simp at hm ⊢; omega) (by simp at hd ⊢; omega) h1 h2
      refine ⟨cm', cs', ?_, ?_, ?_⟩ <;>
        simp [hyAdd2, hin, heq, backfill, hl1, hl2]

lemma dedupFold_len : ∀ (l : List String) (acc : List String),
    (l.foldl dedupAdd acc).length ≤ acc.length + l.length
  | [], acc => by simp
  | d :: l, acc => by
    have h := dedupFold_len l (dedupAdd acc d)
    have hstep : (dedupAdd acc d).length ≤ acc.length + 1 := by
      by_cases hd : d ∈ acc <;> simp [dedupAdd, hd]
    simp only [List.foldl_cons, List.length_cons]
    omega

lemma backfillFold_le (n : ℕ) : ∀ (l : List String) (acc : List String),
    acc.length ≤ n → (l.foldl (backfill n) acc).length ≤ n
  | [], acc, h => by simpa using h
  | d :: l, acc, h => by
    have hstep : (backfill n acc d).length ≤ n := by
      by_cases hd : d ∉ acc ∧ acc.length < n <;> simp [backfill, hd] <;> omega
    simpa using backfillFold_le n l (backfill n acc d) hstep

lemma backfillFold_pfx (n : ℕ) : ∀ (l : List String) (acc : List String),
    acc <+: l.foldl (backfill n) acc
  | [], acc => by simp
  | d :: l, acc => by
    have hstep : acc <+: backfill n acc d := by
      by_cases hd : d ∉ acc ∧ acc.length < n <;> simp [backfill, hd]
    simpa using hstep.trans (backfillFold_pfx n l (backfill n acc d))

lemma mem_dedupFold_acc : ∀ (l acc : List String) (d : String),
    d ∈ acc → d ∈ l.foldl dedupAdd acc
  | [], _, _, h => by simpa using h
  | x :: l, acc, d, h => by
    have hstep : d ∈ dedupAdd acc x := by
      by_cases hx : x ∈ acc <;> simp [dedupAdd, hx, h]
    simpa using mem_dedupFold_acc l (dedupAdd acc x) d hstep

lemma mem_dedupFold : ∀ (l acc : List String) (d : String),
    d ∈ l → d ∈ l.foldl dedupAdd acc
  | [], _, _, h => by simp at h
  | x :: l, acc, d, h => by
    rcases List.mem_cons.mp h with h | h
    · subst h
      refine mem_dedupFold_acc l (dedupAdd acc d) d ?_
      by_cases hx : d ∈ acc <;> simp [dedupAdd, hx]
    · simpa using mem_dedupFold l (dedupAdd acc x) d h

/-- C4: under a well-formed semantic reply (parallel lists, at most `n`
documents), hybrid search returns exactly the semantic hits in rank order
deduplicated by document text followed by keyword backfill capped at `n`
(`hybridSpecDocs`); the deduplicated semantic list is a prefix of the hybrid
result (same relative order, before any keyword-only addition, never
displaced), and every semantic hit appears in the hybrid result. -/
theorem C4_hybrid_semantic_first {μ : Type}
    (b : String → ℕ → Except Unit (QRes μ)) (q : String) (n : ℕ)
    (hm : (semantic_search b q n).metadatas.length =
      (semantic_search b q n).documents.length)
    (hd : (semantic_search b q n).distances.length =
      (semantic_search b q n).documents.length)
    (hc : (semantic_search b q n).documents.length ≤ n) :
    (hybrid_search b q n).documents =
      hybridSpecDocs (semantic_search b q n).documents
        (keyword_search b q n).documents n ∧
    dedupFirst (semantic_search b q n).documents <+:
      (hybrid_search b q n).documents ∧
    ∀ d ∈ (semantic_search b q n).documents, d ∈ (hybrid_search b q n).documents := by
  obtain ⟨cm1, cs1, he1, hl1a, hl1b⟩ := hyAdd1_ok (semantic_search b q n).metadatas
    (semantic_search b q n).distances (semantic_search b q n).documents 0 [] [] []
    (by omega) (by omega) rfl rfl
  obtain ⟨hkm, hkd⟩ := keyword_search_parallel b q n
  obtain ⟨cm2, cs2, he2, hl2a, hl2b⟩ := hyAdd2_ok n (keyword_search b q n).metadatas
    (keyword_search b q n).distances (keyword_search b q n).documents 0
    ((semantic_search b q n).documents.foldl dedupAdd []) cm1 cs1
    (by omega) (by omega) hl1a hl1b
  have hsemlen : ((semantic_search b q n).documents.foldl dedupAdd []).length ≤ n := by
    have := dedupFold_len (semantic_search b q n).documents []
    simp at this
    omega
  have hreslen :
      ((keyword_search b q n).documents.foldl (backfill n)
        ((semantic_search b q n).documents.foldl dedupAdd [])).length ≤ n :=
    backfillFold_le n _ _ hsemlen
  have hdocs : (hybrid_search b q n).documents =
      (keyword_search b q n).documents.foldl (backfill n)
        ((semantic_search b q n).documents.foldl dedupAdd []) := by
    rw [hybrid_search]
    simp only [he1, he2]
    simp [List.take_of_length_le hreslen]
  refine ⟨?_, ?_, ?_⟩
  · rw [hdocs]
    rfl
  · rw [hdocs]
    exact backfillFold_pfx n _ _
  · intro d hdmem
    have h1 : d ∈ dedupFirst (semantic_search b q n).documents :=
      mem_dedupFold _ [] d hdmem
    have h2 : dedupFirst (semantic_search b q n).documents <+:
        (hybrid_search b q n).documents := by
      rw [hdocs]
      exact backfillFold_pfx n _ _
    exact h2.subset h1

/-- The backend used by the hybrid witness: two semantic hits for `n = 3`,
four keyword candidates otherwise. -/
def bHY : String → ℕ → Except Unit (QRes ℕ) := fun _ m =>
  if m = 3 then .ok ⟨["a", "b"], [1, 2], [1, 2]⟩
  else .ok ⟨["b", "c", "a", "d"], [1, 2, 3, 4], [1, 2, 3, 4]⟩

/-- C4 witness: semantic hits ["a", "b"] keep their order at the front and
keyword backfill adds "c", stopping at `n = 3` before "d". -/
theorem C4_witness : (hybrid_search bHY "b c d" 3).documents = ["a", "b", "c"] := by
  have h := (C4_hybrid_semantic_first bHY "b c d" 3 (by decide) (by decide)
    (by decide)).1
  rw [h]
  decide

/-- C6: if every backend call raises, each of the four strategy dispatches
returns the empty result shape instead of propagating; likewise a backend
that answers every query with the empty result (an empty index) yields the
empty shape under every strategy. -/
theorem C6_search_error_empty {μ : Type}
    (b : String → ℕ → Except Unit (QRes μ)) (q : String) (n : ℕ)
    (strategy : String) :
    ((∀ q' n', b q' n' = .error ()) →
      search_similar_content b q n strategy = emptyRes) ∧
    ((∀ q' n', b q' n' = .ok emptyRes) →
      search_similar_content b q n strategy = emptyRes) := by
  constructor
  · intro h
    have hs : semantic_search b q n = emptyRes := by
      rw [semantic_search, h q n]
    have hk : keyword_search b q n = emptyRes := by
      rw [keyword_search, h q (2 * n)]
    have hh : hybrid_search b q n = emptyRes := by
      rw [hybrid_search]
      simp only [hs, hk]
      simp [hyAdd1, hyAdd2, emptyRes]
    rw [search_similar_content]
    split_ifs <;> assumption
  · intro h
    have hs : semantic_search b q n = emptyRes := by
      rw [semantic_search, h q n]
    have hk : keyword_search b q n = emptyRes := by
      rw [keyword_search, h q (2 * n)]
      simp [kwLoop, emptyRes]
    have hh : hybrid_search b q n = emptyRes := by
      rw [hybrid_search]
      simp only [hs, hk]
      simp [hyAdd1, hyAdd2, emptyRes]
    rw [search_similar_content]
    split_ifs <;> assumption

/-- C6 witness: the theorem applied to an always-raising backend and to an
empty-index backend, with the hybrid strategy. -/
theorem C6_witness :
    search_similar_content (fun (_ : String) (_ : ℕ) =>
        (.error () : Except Unit (QRes ℕ))) "query" 5 "hybrid" = emptyRes ∧
    search_similar_content (fun (_ : String) (_ : ℕ) =>
        (.ok emptyRes : Except Unit (QRes ℕ))) "query" 5 "hybrid" = emptyRes :=
  ⟨(C6_search_error_empty _ "query" 5 "hybrid").1 fun _ _ => rfl,
   (C6_search_error_empty _ "query" 5 "hybrid").2 fun _ _ => rfl⟩

/-! ## Claims C8, C9: the answer synthesizer -/

/-- C8 (amended): for numeric input the formatter renders the floor of
`seconds / 60` and the floor of the (non-negative) Python modulus
`seconds % 60`, each zero-padded to two digits; only a non-numeric argument
(the `except` path) is rendered `"00:00"`.  A negative numeric value is NOT
mapped to `"00:00"`: Python floor semantics give
`format_timestamp(-1) = "-1:59"`.  `utils.format_time` is the identical
function. -/
theorem C8_format_timestamp_amended :
    (∀ q : ℚ, format_timestamp (some q) =
      pad2 ⌊q / 60⌋ ++ ":" ++ pad2 ⌊q - 60 * ((⌊q / 60⌋ : ℤ) : ℚ)⌋) ∧
    format_timestamp none = "00:00" ∧
    format_timestamp (some 125) = "02:05" ∧
    format_timestamp (some (-1)) = "-1:59" ∧
    ∀ x, format_time x = format_timestamp x := by
  refine ⟨fun q => rfl, rfl, ?_, ?_, ?_⟩
  · have h1 : ⌊(125 : ℚ) / 60⌋ = 2 := by norm_num
    have h2 : ⌊(125 : ℚ) - 60 * ((2 : ℤ) : ℚ)⌋ = 5 := by norm_num
    show pad2 ⌊(125 : ℚ) / 60⌋ ++ ":" ++
      pad2 ⌊(125 : ℚ) - 60 * ((⌊(125 : ℚ) / 60⌋ : ℤ) : ℚ)⌋ = "02:05"
    rw [h1, h2]
    rfl
  · have h1 : ⌊(-1 : ℚ) / 60⌋ = -1 := by norm_num
    have h2 : ⌊(-1 : ℚ) - 60 * ((-1 : ℤ) : ℚ)⌋ = 59 := by norm_num
    show pad2 ⌊(-1 : ℚ) / 60⌋ ++ ":" ++
      pad2 ⌊(-1 : ℚ) - 60 * ((⌊(-1 : ℚ) / 60⌋ : ℤ) : ℚ)⌋ = "-1:59"
    rw [h1, h2]
    rfl
  · rintro (_ | q) <;> rfl

/-- C8 counterexample: `format_timestamp` applied to the numeric value -1
returns `"-1:59"`, not the `"00:00"` the claim asserts for negative
input. -/
theorem C8_counterexample :
    format_timestamp (some (-1)) = "-1:59" ∧
    ¬ format_timestamp (some (-1)) = "00:00" := by
  have h1 : ⌊(-1 : ℚ) / 60⌋ = -1 := by norm_num
  have h2 : ⌊(-1 : ℚ) - 60 * ((-1 : ℤ) : ℚ)⌋ = 59 := by norm_num
  have he : format_timestamp (some (-1)) = "-1:59" := by
    show pad2 ⌊(-1 : ℚ) / 60⌋ ++ ":" ++
      pad2 ⌊(-1 : ℚ) - 60 * ((⌊(-1 : ℚ) / 60⌋ : ℤ) : ℚ)⌋ = "-1:59"
    rw [h1, h2]
    rfl
  refine ⟨he, ?_⟩
  rw [he]
  decide

/-- C9: an unrecognized backend id never raises: the result carries the
`"Error: Unknown model '<id>'..."` response text, the sources are still the
retrieval result, and `results_count` is the number of retrieved
documents. -/
theorem C9_unknown_model (b : String → ℕ → Except Unit (QRes ChunkMeta))
    (genGemini genOpenai : String → String → String → String)
    (defaultModel : String) (query : String) (n : ℕ) (strategy : String)
    (m : String) (h1 : m ≠ "gemini") (h2 : m ≠ "openai") :
    query_podcasts b genGemini genOpenai defaultModel query n strategy (some m) =
      ⟨"Error: Unknown model '" ++ m ++ "'. Available models: gemini, openai",
        search_similar_content b query n strategy,
        ⟨strategy, m,
          (search_similar_content b query n strategy).documents.length⟩⟩ := by
  simp [query_podcasts, h1, h2]

/-- C9 witness: the theorem applied to the unknown id "claude". -/
theorem C9_witness :
    query_podcasts (fun _ _ => .ok emptyRes) (fun _ _ _ => "g")
        (fun _ _ _ => "o") "gemini" "q" 2 "semantic" (some "claude") =
      ⟨"Error: Unknown model '" ++ "claude" ++ "'. Available models: gemini, openai",
        search_similar_content (fun _ _ => .ok emptyRes) "q" 2 "semantic",
        ⟨"semantic", "claude",
          (search_similar_content (fun (_ : String) (_ : ℕ) =>
            (.ok emptyRes : Except Unit (QRes ChunkMeta))) "q" 2
            "semantic").documents.length⟩⟩ :=
  C9_unknown_model (fun _ _ => .ok emptyRes) (fun _ _ _ => "g") (fun _ _ _ => "o")
    "gemini" "q" 2 "semantic" "claude" (by decide) (by decide)
